import Mathlib

/-!
Verification of the viral-clip detection pipeline.

This file embeds the segment-detection and fusion core of the repository in
Lean and proves (or refutes) the specification's claims about it.  Times,
durations and scores are embedded as rationals; the external collaborator
calls (file system, ffmpeg, ffprobe, the scoring network call) are passed in
as explicit outcome values of type `Except`.
-/

namespace Clipper

/-- Embeds the `Caption` record of `captionScraper.server.ts`:
`{start: number, duration: number, text: string}`. -/
structure Caption where
  start : ℚ
  duration : ℚ
  text : String
deriving DecidableEq

/-- Embeds `AnalysisResult` of `captionAnalyzer.ts`. -/
structure AnalysisResult where
  score : ℚ
  reasons : List String
  emotions : List String
  keywords : List String
  summary : String
deriving DecidableEq

/-- Embeds the intersection type `AnalysisResult & {caption: Caption}`
used for analysed caption segments. -/
structure CaptionAnalysis extends AnalysisResult where
  caption : Caption
deriving DecidableEq

/-- Embeds the string union `'speech' | 'music' | 'silence' | 'noise'`. -/
inductive SegmentType
  | speech
  | music
  | silence
  | noise
deriving DecidableEq

/-- Embeds the `Segment` record of the detector module.  The source field
named `end` is a Lean keyword and is embedded as `stop`. -/
structure Segment where
  start : ℚ
  stop : ℚ
  score : ℚ
  type : SegmentType
deriving DecidableEq

/-- Embeds `EnhancedSegment` of `fetcher.ts` (`Segment` plus optional
`captionText`, optional `aiAnalysis`, and `combinedScore`). -/
structure EnhancedSegment where
  start : ℚ
  stop : ℚ
  score : ℚ
  type : SegmentType
  captionText : Option String := none
  aiAnalysis : Option CaptionAnalysis := none
  combinedScore : ℚ
deriving DecidableEq

/-- A plain time interval, used for the overlap test. -/
structure Interval where
  start : ℚ
  stop : ℚ
deriving DecidableEq

/-- Embeds `EnhancedViralDetector.segmentsOverlap`: two intervals overlap
iff each starts before the other ends. -/
def segmentsOverlap (s1 s2 : Interval) : Bool :=
  decide (s1.start < s2.stop) && decide (s2.start < s1.stop)

/-- The caption-segment triple `{start, end, analysis}` built in
`combineAudioAndCaptionAnalysis` before the overlap search. -/
structure CaptionSegment where
  start : ℚ
  stop : ℚ
  analysis : CaptionAnalysis
deriving DecidableEq

/-- The mapping of one analysis result to its caption-segment triple
(`start = caption.start`, `end = caption.start + caption.duration`). -/
def toCaptionSegment (result : CaptionAnalysis) : CaptionSegment :=
  ⟨result.caption.start, result.caption.start + result.caption.duration, result⟩

/-- Embeds `EnhancedViralDetector.findOverlappingCaptions`. -/
def findOverlappingCaptions (audioSegment : Segment)
    (captionSegments : List CaptionSegment) : List CaptionSegment :=
  captionSegments.filter fun captionSegment =>
    segmentsOverlap ⟨audioSegment.start, audioSegment.stop⟩
      ⟨captionSegment.start, captionSegment.stop⟩

/-- The body of the first loop of
`EnhancedViralDetector.combineAudioAndCaptionAnalysis`: enhance one audio
segment with its overlapping caption analyses. -/
def enhanceAudioSegment (captionAnalysisResults : List CaptionAnalysis)
    (audioSegment : Segment) : EnhancedSegment :=
  let overlappingCaptions :=
    findOverlappingCaptions audioSegment (captionAnalysisResults.map toCaptionSegment)
  match overlappingCaptions with
  | [] =>
    { start := audioSegment.start, stop := audioSegment.stop,
      score := audioSegment.score, type := audioSegment.type,
      combinedScore := audioSegment.score * 0.7 }
  | first :: _ =>
    let avgAiScore :=
      (overlappingCaptions.foldl (fun sum c => sum + c.analysis.score) 0) /
        (overlappingCaptions.length : ℚ)
    let combinedCaptionText :=
      String.intercalate (" ") (overlappingCaptions.map fun c => c.analysis.caption.text)
    let bestAnalysis :=
      (overlappingCaptions.foldl
        (fun best current =>
          if current.analysis.score > best.analysis.score then current else best)
        first).analysis
    let audioWeight : ℚ := 0.4
    let captionWeight : ℚ := 0.6
    { start := audioSegment.start, stop := audioSegment.stop,
      score := audioSegment.score, type := audioSegment.type,
      captionText := some combinedCaptionText,
      aiAnalysis := some bestAnalysis,
      combinedScore := audioSegment.score * audioWeight + avgAiScore * captionWeight }

/-- The orphan segment pushed by the second loop of
`combineAudioAndCaptionAnalysis` for a high-scoring caption result that
overlaps no segment emitted so far. -/
def orphanSegment (captionResult : CaptionAnalysis) : EnhancedSegment :=
  { start := captionResult.caption.start,
    stop := captionResult.caption.start + captionResult.caption.duration,
    score := 0.5, type := SegmentType.speech,
    captionText := some captionResult.caption.text,
    aiAnalysis := some captionResult,
    combinedScore := captionResult.score * 0.8 }

/-- The second loop of `combineAudioAndCaptionAnalysis`: append every
caption result with score at least 0.7 that does not overlap any segment
already in the accumulating list (including orphans appended earlier). -/
def addOrphanCaptions (enhancedSegments : List EnhancedSegment)
    (captionAnalysisResults : List CaptionAnalysis) : List EnhancedSegment :=
  captionAnalysisResults.foldl
    (fun acc captionResult =>
      if captionResult.score < 0.7 then acc
      else
        let captionIval : Interval :=
          ⟨captionResult.caption.start,
           captionResult.caption.start + captionResult.caption.duration⟩
        let hasOverlap := acc.any fun segment =>
          segmentsOverlap ⟨segment.start, segment.stop⟩ captionIval
        if hasOverlap then acc else acc ++ [orphanSegment captionResult])
    enhancedSegments

/-- The comparison passed to the final sort: descending by `combinedScore`
(the JavaScript comparator `b.combinedScore - a.combinedScore`, a stable
sort). -/
def byCombinedScoreDesc (a b : EnhancedSegment) : Bool :=
  decide (b.combinedScore ≤ a.combinedScore)

/-- Embeds `EnhancedViralDetector.combineAudioAndCaptionAnalysis`: the
fusion engine. -/
def combineAudioAndCaptionAnalysis (audioSegments : List Segment)
    (captionAnalysisResults : List CaptionAnalysis) : List EnhancedSegment :=
  let enhancedSegments := audioSegments.map (enhanceAudioSegment captionAnalysisResults)
  let withOrphans := addOrphanCaptions enhancedSegments captionAnalysisResults
  withOrphans.mergeSort byCombinedScoreDesc

/-- Embeds `EnhancedViralDetector.filterSegmentsByDuration`. -/
def filterSegmentsByDuration (segments : List EnhancedSegment)
    (minDuration : ℚ := 5) (maxDuration : ℚ := 60) : List EnhancedSegment :=
  segments.filter fun segment =>
    let duration := segment.stop - segment.start
    decide (duration ≥ minDuration) && decide (duration ≤ maxDuration)

/-! ## A model of the fusion engine written from the specification's words

`fuseSpec` below restates the fusion claim of the spec (overlap by the
half-open predicate, mean of the overlapping scores, space-joined caption
texts in input order, the first maximal-score overlapping result, the 0.7
orphan threshold, the 0.8 and 0.7 penalties, sort by combined score
descending).  It is compared with the source embedding
`combineAudioAndCaptionAnalysis` in the theorem for the corresponding
claim. -/

/-- Spec model: fuse one acoustic segment `A` with the relevance results
whose source interval overlaps `A`.  The best result is the overlapping
result with maximal score, the first one winning ties (`List.argmax`). -/
def specFuseAcoustic (relevance : List CaptionAnalysis) (A : Segment) : EnhancedSegment :=
  let overlapping := relevance.filter fun r =>
    decide (A.start < r.caption.start + r.caption.duration) &&
      decide (r.caption.start < A.stop)
  if overlapping.isEmpty then
    { start := A.start, stop := A.stop, score := A.score, type := A.type,
      captionText := none, aiAnalysis := none, combinedScore := 0.7 * A.score }
  else
    { start := A.start, stop := A.stop, score := A.score, type := A.type,
      captionText :=
        some (String.intercalate (" ") (overlapping.map fun r => r.caption.text)),
      aiAnalysis := overlapping.argmax fun r => r.score,
      combinedScore :=
        0.4 * A.score + 0.6 * ((overlapping.map fun r => r.score).sum / overlapping.length) }

/-- Spec model of the orphan pass: each relevance result with score at
least 0.7 whose interval overlaps no fused segment produced so far is
appended with assumed acoustic score 0.5, type speech, and combined score
0.8 times its relevance score. -/
def specAddOrphans (acc : List EnhancedSegment) :
    List CaptionAnalysis → List EnhancedSegment
  | [] => acc
  | r :: rest =>
    if decide (0.7 ≤ r.score) &&
        !(acc.any fun s =>
          decide (s.start < r.caption.start + r.caption.duration) &&
            decide (r.caption.start < s.stop)) then
      specAddOrphans
        (acc ++ [{ start := r.caption.start,
                   stop := r.caption.start + r.caption.duration,
                   score := 0.5, type := SegmentType.speech,
                   captionText := some r.caption.text,
                   aiAnalysis := some r,
                   combinedScore := 0.8 * r.score }]) rest
    else specAddOrphans acc rest

/-- Spec model of the whole fusion contract `fuse`. -/
def fuseSpec (acoustic : List Segment) (relevance : List CaptionAnalysis) :
    List EnhancedSegment :=
  (specAddOrphans (acoustic.map (specFuseAcoustic relevance)) relevance).mergeSort
    byCombinedScoreDesc

/-! ## The transcript segmenter -/

/-- The loop body of `CaptionScraper.groupCaptionsIntoSegments`: a caption
whose duration would push a non-empty accumulator over the target duration
flushes the accumulator and seeds a new one; otherwise it is merged into
the accumulator. -/
def groupStep (segmentDuration : ℚ) (st : List Caption × Caption)
    (caption : Caption) : List Caption × Caption :=
  if st.2.duration > 0 && st.2.duration + caption.duration > segmentDuration then
    (st.1 ++ [st.2], (⟨caption.start, caption.duration, caption.text⟩ : Caption))
  else
    (st.1, (⟨st.2.start, st.2.duration + caption.duration,
      st.2.text ++ " " ++ caption.text⟩ : Caption))

/-- Embeds `CaptionScraper.groupCaptionsIntoSegments`: fold the captions
into an accumulator seeded at the first caption's start with duration 0 and
empty text, then flush any trailing accumulator with positive duration. -/
def groupCaptionsIntoSegments (captions : List Caption)
    (segmentDuration : ℚ := 15) : List Caption :=
  match captions with
  | [] => []
  | c0 :: _ =>
    let result := captions.foldl (groupStep segmentDuration) ([], ⟨c0.start, 0, ""⟩)
    if result.2.duration > 0 then result.1 ++ [result.2] else result.1

/-! ## The acoustic segment detector -/

/-- Embeds `DetectionOptions` of the detector module. -/
structure DetectionOptions where
  minSegmentDuration : ℚ
  maxSegmentDuration : ℚ
  energyThreshold : ℚ
  speechRateThreshold : ℚ
deriving DecidableEq

/-- The constructor defaults of `ViralContentDetector`. -/
def defaultDetectionOptions : DetectionOptions := ⟨5, 60, 0.6, 0.7⟩

/-- One step of the energy walk in `ViralContentDetector.analyzeAudio`:
state is (emitted segments, optionally the start time of an open
candidate). -/
def analyzeAudioStep (opts : DetectionOptions) (n : ℕ) (audioDuration : ℚ)
    (st : List Segment × Option ℚ) (ie : ℕ × ℚ) : List Segment × Option ℚ :=
  let timePoint := ((ie.1 : ℚ) / (n : ℚ)) * audioDuration
  let energy := ie.2
  if energy > opts.energyThreshold then
    match st.2 with
    | none => (st.1, some timePoint)
    | some _ => st
  else
    match st.2 with
    | none => st
    | some start =>
      let duration := timePoint - start
      if opts.minSegmentDuration ≤ duration ∧ duration ≤ opts.maxSegmentDuration then
        (st.1 ++ [⟨start, timePoint, 0, SegmentType.speech⟩], none)
      else (st.1, none)

/-- Embeds `ViralContentDetector.analyzeAudio` as a function of the energy
samples and the total audio duration (both produced by collaborators in the
source).  Sample `i` of `n` is mapped to time `i / n * audioDuration`; a
candidate still open after the last sample is closed at the total duration
and put through the same duration filter. -/
def analyzeAudio (opts : DetectionOptions) (energyLevels : List ℚ)
    (audioDuration : ℚ) : List Segment :=
  let n := energyLevels.length
  let result := energyLevels.enum.foldl (analyzeAudioStep opts n audioDuration) ([], none)
  match result.2 with
  | none => result.1
  | some start =>
    let duration := audioDuration - start
    if opts.minSegmentDuration ≤ duration ∧ duration ≤ opts.maxSegmentDuration then
      result.1 ++ [⟨start, audioDuration, 0, SegmentType.speech⟩]
    else result.1

/-- Embeds `ViralContentDetector.calculateDurationScore`. -/
def calculateDurationScore (opts : DetectionOptions) (duration : ℚ) : ℚ :=
  let optimalDuration : ℚ := 15
  let distanceFromOptimal := |duration - optimalDuration|
  let maxDistance := max (optimalDuration - opts.minSegmentDuration)
    (opts.maxSegmentDuration - optimalDuration)
  1 - distanceFromOptimal / maxDistance

/-- The comparison of the detector's final sort: descending by score. -/
def byScoreDesc (a b : Segment) : Bool :=
  decide (b.score ≤ a.score)

/-- Embeds `ViralContentDetector.scoreSegments`: replace each score by the
average of the duration score and the type score, then sort descending. -/
def scoreSegments (opts : DetectionOptions) (segments : List Segment) :
    List Segment :=
  (segments.map fun segment =>
    let duration := segment.stop - segment.start
    let durationScore := calculateDurationScore opts duration
    let typeScore : ℚ := if segment.type = SegmentType.speech then 0.8 else 0.4
    { segment with score := (durationScore + typeScore) / 2 }).mergeSort byScoreDesc

/-- Embeds the body of the `try` block of
`ViralContentDetector.detectViralSegments`.  The collaborator calls are
passed in as outcomes: the existence check on the video file, the ffmpeg
audio extraction, the ffprobe duration probe, and the (simulated) energy
analysis.  A thrown error surfaces as `Except.error`. -/
def detectViralSegmentsBody (opts : DetectionOptions) (videoExists : Bool)
    (extractAudioResult : Except String Unit) (durationResult : Except String ℚ)
    (energyResult : Except String (List ℚ)) : Except String (List Segment) :=
  if !videoExists then Except.error ("Video file not found")
  else
    match extractAudioResult with
    | Except.error e => Except.error e
    | Except.ok _ =>
      match durationResult, energyResult with
      | Except.error e, _ => Except.error e
      | Except.ok _, Except.error e => Except.error e
      | Except.ok audioDuration, Except.ok energyLevels =>
        Except.ok (scoreSegments opts (analyzeAudio opts energyLevels audioDuration))

/-- Embeds `ViralContentDetector.detectViralSegments`: the whole body is
wrapped in `try`/`catch`, and the catch arm logs the error and returns the
empty segment list as a normal value. -/
def detectViralSegments (opts : DetectionOptions) (videoExists : Bool)
    (extractAudioResult : Except String Unit) (durationResult : Except String ℚ)
    (energyResult : Except String (List ℚ)) : Except String (List Segment) :=
  match detectViralSegmentsBody opts videoExists extractAudioResult
      durationResult energyResult with
  | Except.ok segments => Except.ok segments
  | Except.error _ => Except.ok []

/-! ## The transcript relevance scorer -/

/-- The JSON object expected from the scoring collaborator, after
JavaScript field access and `parseFloat`: `score` is `some q` when the
field holds (or parses to) a finite number and `none` when it is missing or
non-numeric (`parseFloat` yields `NaN`, and `NaN || 0` is `0`); each array
field is `none` when missing or not an array. -/
structure ScorerResponse where
  score : Option ℚ
  reasons : Option (List String)
  emotions : Option (List String)
  keywords : Option (List String)
  summary : Option String
deriving DecidableEq

/-- Embeds `CaptionAnalyzer.parseAnalysisResult`.  The argument is the
outcome of `JSON.parse` on the response text (`Except.error` when the text
is unparseable, which the source's local `catch` converts to the zero-score
fallback).  `x || 0` and `x || []`-style coercions become `Option.getD`. -/
def parseAnalysisResult (response : Except String ScorerResponse) : AnalysisResult :=
  match response with
  | Except.error _ =>
    { score := 0, reasons := ["Error parsing analysis result"], emotions := [],
      keywords := [], summary := "Failed to parse analysis" }
  | Except.ok r =>
    { score := r.score.getD 0, reasons := r.reasons.getD [],
      emotions := r.emotions.getD [], keywords := r.keywords.getD [],
      summary := r.summary.getD ("") }

/-- Embeds `CaptionAnalyzer.analyzeViralPotential` as a function of the
network call's outcome: an outer `Except.error` is the axios failure caught
by the method's own `catch` (yielding the zero-score diagnostic result),
and the inner value is handed to `parseAnalysisResult`. -/
def analyzeViralPotential
    (callResult : Except String (Except String ScorerResponse)) : AnalysisResult :=
  match callResult with
  | Except.error _ =>
    { score := 0, reasons := ["Error analyzing content"], emotions := [],
      keywords := [], summary := "Analysis failed" }
  | Except.ok response => parseAnalysisResult response

/-- The comparison of the scorer's final sort: descending by score. -/
def byAnalysisScoreDesc (a b : CaptionAnalysis) : Bool :=
  decide (b.score ≤ a.score)

/-- The batched loop of `CaptionAnalyzer.analyzeMultipleSegments`: process
the captions in batches of three (the batch results are awaited together
and appended in input order; the inter-batch delay does not affect the
value). -/
def analyzeBatches (oracle : Caption → Except String (Except String ScorerResponse)) :
    List Caption → List CaptionAnalysis
  | [] => []
  | caption :: rest =>
    ((caption :: rest.take 2).map fun c =>
      (⟨analyzeViralPotential (oracle c), c⟩ : CaptionAnalysis))
      ++ analyzeBatches oracle (rest.drop 2)
termination_by l => l.length
decreasing_by
  simp only [List.length_drop, List.length_cons]
  omega

/-- Embeds `CaptionAnalyzer.analyzeMultipleSegments`: analyse each caption
(batched), then sort the results by score descending. -/
def analyzeMultipleSegments
    (oracle : Caption → Except String (Except String ScorerResponse))
    (captions : List Caption) : List CaptionAnalysis :=
  (analyzeBatches oracle captions).mergeSort byAnalysisScoreDesc

/-! ## Lemmas about the transcript segmenter -/

/-- Once the accumulator has positive duration and the window is
non-positive, every further caption with positive duration flushes the
accumulator, so the fold turns the pending accumulator and the remaining
captions into individual output segments. -/
theorem groupStep_foldl_nonpos (w : ℚ) (hw : w ≤ 0) :
    ∀ (l : List Caption) (segs : List Caption) (cur : Caption),
      0 < cur.duration → (∀ c ∈ l, 0 < c.duration) →
      l.foldl (groupStep w) (segs, cur) =
        (segs ++ (cur :: l).dropLast, (cur :: l).getLast (List.cons_ne_nil _ _)) := by
  intro l
  induction l with
  | nil => intro segs cur _ _; simp
  | cons c t ih =>
    intro segs cur hcur hl
    have hc : 0 < c.duration := hl c (List.mem_cons_self _ _)
    have hcond : (decide (cur.duration > 0) &&
        decide (cur.duration + c.duration > w)) = true := by
      simp only [Bool.and_eq_true, decide_eq_true_eq]
      constructor
      · exact hcur
      · have : (0 : ℚ) < cur.duration + c.duration := by positivity
        exact lt_of_le_of_lt hw this
    have hstep : groupStep w (segs, cur) c = (segs ++ [cur], c) := by
      simp only [groupStep, hcond, if_true]
    rw [List.foldl_cons, hstep,
      ih (segs ++ [cur]) c hc (fun d hd => hl d (List.mem_cons_of_mem _ hd))]
    rw [List.dropLast_cons₂, List.getLast_cons (List.cons_ne_nil _ _)]
    simp [List.append_assoc]

/-- Every segment flushed by the grouping fold either fits in the window
or carries the duration of a single over-long input caption; the pending
accumulator satisfies the same bound and stays non-negative. -/
theorem groupStep_foldl_inv (w : ℚ) (S : List Caption)
    (hS : ∀ c ∈ S, 0 < c.duration) :
    ∀ (l : List Caption), (∀ c ∈ l, c ∈ S) → ∀ (segs : List Caption) (cur : Caption),
      (∀ t ∈ segs, t.duration ≤ w ∨ ∃ c ∈ S, t.duration = c.duration) →
      (cur.duration ≤ w ∨ ∃ c ∈ S, cur.duration = c.duration) →
      0 ≤ cur.duration →
      (∀ t ∈ (l.foldl (groupStep w) (segs, cur)).1,
          t.duration ≤ w ∨ ∃ c ∈ S, t.duration = c.duration) ∧
        ((l.foldl (groupStep w) (segs, cur)).2.duration ≤ w ∨
          ∃ c ∈ S, (l.foldl (groupStep w) (segs, cur)).2.duration = c.duration) ∧
        0 ≤ (l.foldl (groupStep w) (segs, cur)).2.duration := by
  intro l
  induction l with
  | nil =>
    intro _ segs cur hsegs hcur hnn
    exact ⟨hsegs, hcur, hnn⟩
  | cons c t ih =>
    intro hsub segs cur hsegs hcur hnn
    have hcS : c ∈ S := hsub c (List.mem_cons_self _ _)
    have hcd : 0 < c.duration := hS c hcS
    have hsub' : ∀ d ∈ t, d ∈ S := fun d hd => hsub d (List.mem_cons_of_mem _ hd)
    rw [List.foldl_cons]
    by_cases hflush : (decide (cur.duration > 0) &&
        decide (cur.duration + c.duration > w)) = true
    · have hstep : groupStep w (segs, cur) c =
          (segs ++ [cur], (⟨c.start, c.duration, c.text⟩ : Caption)) := by
        simp only [groupStep, hflush, if_true]
      rw [hstep]
      refine ih hsub' _ _ ?_ ?_ ?_
      · intro u hu
        rcases List.mem_append.mp hu with hu | hu
        · exact hsegs u hu
        · rcases List.mem_singleton.mp hu with rfl
          exact hcur
      · exact Or.inr ⟨c, hcS, rfl⟩
      · exact le_of_lt hcd
    · have hfalse : (decide (cur.duration > 0) &&
          decide (cur.duration + c.duration > w)) = false := by
        simpa using hflush
      have hstep : groupStep w (segs, cur) c =
          (segs, (⟨cur.start, cur.duration + c.duration,
            cur.text ++ " " ++ c.text⟩ : Caption)) := by
        simp [groupStep, hfalse]
      rw [hstep]
      have hcases : ¬ (0 < cur.duration) ∨ cur.duration + c.duration ≤ w := by
        rcases Bool.and_eq_false_iff.mp hfalse with h | h
        · left; simpa using of_decide_eq_false h
        · right; simpa using of_decide_eq_false h
      refine ih hsub' _ _ hsegs ?_ ?_
      · rcases hcases with h | h
        · have hz : cur.duration = 0 := le_antisymm (not_lt.mp h) hnn
          refine Or.inr ⟨c, hcS, ?_⟩
          simp [hz]
        · exact Or.inl h
      · have : (0 : ℚ) ≤ cur.duration + c.duration := by positivity
        exact this

/-- C4 (counterexample): on the claim's caption sequence with window 8 the
grouping does not return the two claimed segments: the 5-second captions
"a" and "b" are not merged, because 5 + 5 = 10 exceeds the window 8, and
a freshly seeded segment carries no leading space. -/
theorem C4_counterexample :
    groupCaptionsIntoSegments [⟨0, 5, "a"⟩, ⟨5, 5, "b"⟩, ⟨10, 5, "c"⟩] 8 ≠
      [⟨0, 10, " a b"⟩, ⟨10, 5, " c"⟩] := by
  norm_num [groupCaptionsIntoSegments, groupStep]

/-- C4 (amended): grouping `[{0,5,"a"},{5,5,"b"},{10,5,"c"}]` with window 8
returns exactly three segments `{0,5," a"}`, `{5,5,"b"}` and `{10,5,"c"}`:
each caption flushes the previous accumulator since adding it would exceed
the 8-second window, the very first segment gets a leading space from the
empty seed text, and re-seeded segments carry the caption text verbatim. -/
theorem C4_actual_grouping :
    groupCaptionsIntoSegments [⟨0, 5, "a"⟩, ⟨5, 5, "b"⟩, ⟨10, 5, "c"⟩] 8 =
      [⟨0, 5, " a"⟩, ⟨5, 5, "b"⟩, ⟨10, 5, "c"⟩] := by
  norm_num [groupCaptionsIntoSegments, groupStep]
  rfl

/-- C5 (counterexample): an output segment other than the first may exceed
the window.  Grouping `[{0,1,"a"},{1,100,"b"}]` with window 8 returns two
segments, the first of duration 1 (within the window) and the second of
duration 100 (exceeding it), refuting "except possibly the very first
output segment". -/
theorem C5_counterexample :
    groupCaptionsIntoSegments [⟨0, 1, "a"⟩, ⟨1, 100, "b"⟩] 8 =
        [⟨0, 1, " a"⟩, ⟨1, 100, "b"⟩]
      ∧ ((⟨0, 1, " a"⟩ : Caption).duration ≤ 8 ∧
          ¬ ((⟨1, 100, "b"⟩ : Caption).duration ≤ 8)) := by
  refine ⟨?_, by norm_num, by norm_num⟩
  norm_num [groupCaptionsIntoSegments, groupStep]
  rfl

/-- C5 (amended): for a positive window and positive caption durations,
every output segment of the grouping that exceeds the window carries the
duration of a single over-long input caption — such segments can appear at
any position of the output, not only first. -/
theorem C5_oversize_segment_is_single_caption (captions : List Caption)
    (w : ℚ) (s : Caption) (hw : 0 < w) (hpos : ∀ c ∈ captions, 0 < c.duration)
    (hs : s ∈ groupCaptionsIntoSegments captions w) (hgt : w < s.duration) :
    ∃ c ∈ captions, s.duration = c.duration ∧ w < c.duration := by
  cases captions with
  | nil => simp [groupCaptionsIntoSegments] at hs
  | cons c0 rest =>
    have hinv := groupStep_foldl_inv w (c0 :: rest) hpos (c0 :: rest)
      (fun c h => h) [] ⟨c0.start, 0, ""⟩ (by simp)
      (Or.inl (le_of_lt hw)) (le_refl 0)
    simp only [groupCaptionsIntoSegments] at hs
    have good : s.duration ≤ w ∨ ∃ c ∈ c0 :: rest, s.duration = c.duration := by
      split at hs
      · rcases List.mem_append.mp hs with h | h
        · exact hinv.1 s h
        · rcases List.mem_singleton.mp h with rfl
          exact hinv.2.1
      · exact hinv.1 s hs
    rcases good with h | ⟨c, hc, heq⟩
    · exact absurd hgt (not_lt.mpr h)
    · exact ⟨c, hc, heq, heq ▸ hgt⟩

/-- C5 (witness): the amended theorem applied to the counterexample input,
at the second output segment, whose duration 100 exceeds the window 8. -/
theorem C5_oversize_witness :
    ∃ c ∈ [(⟨0, 1, "a"⟩ : Caption), ⟨1, 100, "b"⟩],
      (⟨1, 100, "b"⟩ : Caption).duration = c.duration ∧ (8 : ℚ) < c.duration :=
  C5_oversize_segment_is_single_caption [⟨0, 1, "a"⟩, ⟨1, 100, "b"⟩] 8
    ⟨1, 100, "b"⟩ (by norm_num)
    (by intro c hc; rcases List.mem_cons.mp hc with rfl | hc; · norm_num
        rcases List.mem_singleton.mp hc with rfl; norm_num)
    (by norm_num [groupCaptionsIntoSegments, groupStep]) (by norm_num)

/-- C7 (counterexample): calling the grouping with a negative window is not
an error: the call returns a normal segment list. -/
theorem C7_counterexample :
    groupCaptionsIntoSegments [⟨0, 5, "a"⟩, ⟨5, 5, "b"⟩] (-1) =
      [⟨0, 5, " a"⟩, ⟨5, 5, "b"⟩] := by
  norm_num [groupCaptionsIntoSegments, groupStep]
  rfl

/-- C7 (amended): the grouping performs no validation of `windowSeconds`.
For `windowSeconds ≤ 0` and positive caption durations it returns normally:
the first caption is merged into the empty seed (gaining a leading space)
and every later caption flushes the accumulator and becomes its own
segment. -/
theorem C7_no_window_validation (w : ℚ) (hw : w ≤ 0) (c0 : Caption)
    (rest : List Caption) (h0 : 0 < c0.duration)
    (hrest : ∀ c ∈ rest, 0 < c.duration) :
    groupCaptionsIntoSegments (c0 :: rest) w =
      (⟨c0.start, c0.duration, " " ++ c0.text⟩ : Caption) :: rest := by
  simp only [groupCaptionsIntoSegments]
  rw [List.foldl_cons]
  have hstep : groupStep w ([], ⟨c0.start, 0, ""⟩) c0 =
      ([], (⟨c0.start, c0.duration, " " ++ c0.text⟩ : Caption)) := by
    simp [groupStep, show ("" ++ " " : String) = " " from rfl]
  rw [hstep,
    groupStep_foldl_nonpos w hw rest [] _ (by simpa using h0) hrest]
  have hmem := List.getLast_mem
    (List.cons_ne_nil (⟨c0.start, c0.duration, " " ++ c0.text⟩ : Caption) rest)
  have hposlast : 0 < (((⟨c0.start, c0.duration, " " ++ c0.text⟩ : Caption) ::
      rest).getLast (List.cons_ne_nil _ _)).duration := by
    rcases List.mem_cons.mp hmem with h | h
    · rw [h]
      exact h0
    · exact hrest _ h
  rw [if_pos hposlast]
  rw [List.nil_append]
  exact List.dropLast_append_getLast _

/-- C7 (witness): the amended theorem applied at window 0 to a single
caption of duration 5. -/
theorem C7_no_window_validation_witness :
    groupCaptionsIntoSegments [⟨0, 5, "a"⟩] 0 = [⟨0, 5, " a"⟩] := by
  simpa using C7_no_window_validation 0 le_rfl ⟨0, 5, "a"⟩ []
    (by norm_num) (by simp)

/-! ## Claims about the acoustic detector's error behaviour -/

/-- C3 (counterexample): `detectViralSegments` does not fail on an
unreadable input or on zero-duration audio — the `catch` arm converts the
collaborator failure to a normal empty result, and zero duration yields an
empty list without any error. -/
theorem C3_counterexample :
    detectViralSegments defaultDetectionOptions true (Except.ok ())
        (Except.error ("unreadable")) (Except.ok []) = Except.ok []
    ∧ detectViralSegments defaultDetectionOptions true (Except.ok ())
        (Except.ok 0) (Except.ok [1, 1, 1]) = Except.ok [] := by
  constructor
  · rfl
  · norm_num [detectViralSegments, detectViralSegmentsBody, scoreSegments,
      analyzeAudio, analyzeAudioStep, List.enum, List.enumFrom,
      defaultDetectionOptions]

/-- C3 (amended): `detectViralSegments` never returns an error to its
caller: every failure of the body (missing file, collaborator error) is
caught and converted to the normal value `[]`, and zero-duration audio also
yields a normal (empty) result. -/
theorem C3_never_errors (opts : DetectionOptions) (videoExists : Bool)
    (extractAudioResult : Except String Unit) (durationResult : Except String ℚ)
    (energyResult : Except String (List ℚ)) :
    ∃ segments : List Segment,
      detectViralSegments opts videoExists extractAudioResult durationResult
        energyResult = Except.ok segments := by
  unfold detectViralSegments
  cases h : detectViralSegmentsBody opts videoExists extractAudioResult
      durationResult energyResult with
  | ok segments => exact ⟨segments, rfl⟩
  | error e => exact ⟨[], rfl⟩

/-! ## Claims about the relevance scorer -/

/-- C9 (counterexample): the parse step does not clamp the score to [0,1]:
a scorer response whose score field is the number 2 produces a result with
score 2. -/
theorem C9_counterexample :
    (parseAnalysisResult (Except.ok ⟨some 2, none, none, none, none⟩)).score = 2
    ∧ ¬ ((parseAnalysisResult
        (Except.ok ⟨some 2, none, none, none, none⟩)).score ≤ 1) := by
  constructor
  · rfl
  · norm_num [parseAnalysisResult]

/-- C9 (amended): the parsed score is taken from the response unclamped, so
it lies in [0,1] exactly when the response's numeric score does; a missing
or non-numeric score coerces to 0 and missing array fields coerce to empty
lists. -/
theorem C9_score_coercions (r : ScorerResponse) (q : ℚ) (hq : r.score = some q)
    (h0 : 0 ≤ q) (h1 : q ≤ 1) :
    (parseAnalysisResult (Except.ok r)).score = q
    ∧ 0 ≤ (parseAnalysisResult (Except.ok r)).score
    ∧ (parseAnalysisResult (Except.ok r)).score ≤ 1
    ∧ (parseAnalysisResult (Except.ok { r with score := none })).score = 0
    ∧ (parseAnalysisResult (Except.ok { r with reasons := none })).reasons = []
    ∧ (parseAnalysisResult (Except.ok { r with emotions := none })).emotions = []
    ∧ (parseAnalysisResult (Except.ok { r with keywords := none })).keywords = [] := by
  simp [parseAnalysisResult, hq]
  exact ⟨h0, h1⟩

/-- C9 (witness): the amended theorem applied to a response with numeric
score one half. -/
theorem C9_score_coercions_witness :
    (parseAnalysisResult
        (Except.ok ⟨some (1/2), none, none, none, none⟩)).score = 1/2
    ∧ 0 ≤ (parseAnalysisResult
        (Except.ok ⟨some (1/2), none, none, none, none⟩)).score
    ∧ (parseAnalysisResult
        (Except.ok ⟨some (1/2), none, none, none, none⟩)).score ≤ 1
    ∧ (parseAnalysisResult (Except.ok ⟨none, none, none, none, none⟩)).score = 0
    ∧ (parseAnalysisResult (Except.ok ⟨some (1/2), none, none, none,
        none⟩)).reasons = []
    ∧ (parseAnalysisResult (Except.ok ⟨some (1/2), none, none, none,
        none⟩)).emotions = []
    ∧ (parseAnalysisResult (Except.ok ⟨some (1/2), none, none, none,
        none⟩)).keywords = [] :=
  C9_score_coercions ⟨some (1/2), none, none, none, none⟩ (1/2) rfl
    (by norm_num) (by norm_num)

/-- The batched loop analyses exactly the input captions in input order:
each result is the analysis of that caption's own call outcome. -/
theorem analyzeBatches_eq_map
    (oracle : Caption → Except String (Except String ScorerResponse)) :
    ∀ (captions : List Caption),
      analyzeBatches oracle captions = captions.map fun c =>
        (⟨analyzeViralPotential (oracle c), c⟩ : CaptionAnalysis) := by
  suffices h : ∀ (n : ℕ) (l : List Caption), l.length ≤ n →
      analyzeBatches oracle l = l.map fun c =>
        (⟨analyzeViralPotential (oracle c), c⟩ : CaptionAnalysis) by
    intro captions
    exact h captions.length captions le_rfl
  intro n
  induction n with
  | zero =>
    intro l hl
    rcases List.eq_nil_of_length_eq_zero (Nat.le_zero.mp hl) with rfl
    simp [analyzeBatches]
  | succ n ih =>
    intro l hl
    cases l with
    | nil => simp [analyzeBatches]
    | cons c rest =>
      have hlen : (rest.drop 2).length ≤ n := by
        simp only [List.length_drop]
        simp only [List.length_cons] at hl
        omega
      rw [analyzeBatches, ih (rest.drop 2) hlen, ← List.map_append]
      have harr : (c :: rest.take 2) ++ rest.drop 2 = c :: rest := by
        rw [List.cons_append, List.take_append_drop]
      rw [harr]

/-- C8: an individual scoring failure is isolated.  The batched analysis
returns (up to the final score sort) exactly one result per input caption,
each determined only by that caption's own call outcome — so the other
segments of a batch are unaffected and the pipeline is never aborted — and
both failure modes of one call, a failed network call (the outer error)
and a malformed/unparseable response (the inner error), yield score 0 with
a diagnostic reason string. -/
theorem C8_scoring_failures_isolated
    (oracle : Caption → Except String (Except String ScorerResponse))
    (captions : List Caption) (e e' : String) :
    List.Perm (analyzeMultipleSegments oracle captions)
        (captions.map fun c =>
          (⟨analyzeViralPotential (oracle c), c⟩ : CaptionAnalysis))
    ∧ analyzeViralPotential (Except.error e) =
        ⟨0, ["Error analyzing content"], [], [], "Analysis failed"⟩
    ∧ (analyzeViralPotential (Except.error e)).score = 0
    ∧ (analyzeViralPotential (Except.error e)).reasons ≠ []
    ∧ analyzeViralPotential (Except.ok (Except.error e')) =
        ⟨0, ["Error parsing analysis result"], [], [], "Failed to parse analysis"⟩
    ∧ (analyzeViralPotential (Except.ok (Except.error e'))).score = 0
    ∧ (analyzeViralPotential (Except.ok (Except.error e'))).reasons ≠ [] := by
  refine ⟨?_, rfl, rfl, by simp [analyzeViralPotential], rfl, rfl,
    by simp [analyzeViralPotential, parseAnalysisResult]⟩
  unfold analyzeMultipleSegments
  rw [analyzeBatches_eq_map]
  exact List.mergeSort_perm _ _

/-! ## Claims about the acoustic detector's duration invariant -/

/-- One detector step only ever appends a segment whose duration passed the
min/max filter, so it preserves "every emitted segment is within the
duration bounds". -/
theorem analyzeAudioStep_inv (opts : DetectionOptions) (n : ℕ)
    (audioDuration : ℚ) (segs : List Segment) (cur : Option ℚ) (ie : ℕ × ℚ)
    (h : ∀ s ∈ segs, opts.minSegmentDuration ≤ s.stop - s.start ∧
      s.stop - s.start ≤ opts.maxSegmentDuration) :
    ∀ s ∈ (analyzeAudioStep opts n audioDuration (segs, cur) ie).1,
      opts.minSegmentDuration ≤ s.stop - s.start ∧
        s.stop - s.start ≤ opts.maxSegmentDuration := by
  unfold analyzeAudioStep
  dsimp only
  split
  · cases cur <;> simpa using h
  · cases cur with
    | none => simpa using h
    | some start =>
      dsimp only
      split
      next hdur =>
        intro s hs
        rcases List.mem_append.mp hs with hs | hs
        · exact h s hs
        · rcases List.mem_singleton.mp hs with rfl
          exact hdur
      next hdur => simpa using h

/-- The detector's whole energy walk preserves the duration bounds. -/
theorem analyzeAudio_foldl_inv (opts : DetectionOptions) (n : ℕ)
    (audioDuration : ℚ) :
    ∀ (l : List (ℕ × ℚ)) (segs : List Segment) (cur : Option ℚ),
      (∀ s ∈ segs, opts.minSegmentDuration ≤ s.stop - s.start ∧
        s.stop - s.start ≤ opts.maxSegmentDuration) →
      ∀ s ∈ (l.foldl (analyzeAudioStep opts n audioDuration) (segs, cur)).1,
        opts.minSegmentDuration ≤ s.stop - s.start ∧
          s.stop - s.start ≤ opts.maxSegmentDuration := by
  intro l
  induction l with
  | nil => intro segs cur h; simpa using h
  | cons ie t ih =>
    intro segs cur h
    rw [List.foldl_cons]
    have hstep := analyzeAudioStep_inv opts n audioDuration segs cur ie h
    rcases hst : analyzeAudioStep opts n audioDuration (segs, cur) ie with ⟨segs', cur'⟩
    rw [hst] at hstep
    exact ih segs' cur' hstep

/-- Every segment returned by `analyzeAudio` is within the duration
bounds: both segments closed inside the walk and a final candidate closed
at the end of the audio go through the same filter. -/
theorem analyzeAudio_duration_bounds (opts : DetectionOptions)
    (energyLevels : List ℚ) (audioDuration : ℚ) :
    ∀ s ∈ analyzeAudio opts energyLevels audioDuration,
      opts.minSegmentDuration ≤ s.stop - s.start ∧
        s.stop - s.start ≤ opts.maxSegmentDuration := by
  have hfold := analyzeAudio_foldl_inv opts energyLevels.length audioDuration
    energyLevels.enum [] none (by simp)
  unfold analyzeAudio
  cases hres : energyLevels.enum.foldl
      (analyzeAudioStep opts energyLevels.length audioDuration) ([], none) with
  | mk segs cur =>
    rw [hres] at hfold
    dsimp only
    rw [hres]
    cases cur with
    | none => exact hfold
    | some start =>
      dsimp only
      split
      next hdur =>
        intro s hs
        rcases List.mem_append.mp hs with hs | hs
        · exact hfold s hs
        · rcases List.mem_singleton.mp hs with rfl
          exact hdur
      next hdur => exact hfold

/-- Scoring preserves each segment's interval: every output segment of
`scoreSegments` is an input segment with only the score replaced. -/
theorem scoreSegments_mem (opts : DetectionOptions) (segments : List Segment)
    (s : Segment) (hs : s ∈ scoreSegments opts segments) :
    ∃ t ∈ segments, s.start = t.start ∧ s.stop = t.stop ∧ s.type = t.type := by
  unfold scoreSegments at hs
  rw [List.mem_mergeSort] at hs
  rcases List.mem_map.mp hs with ⟨t, ht, rfl⟩
  exact ⟨t, ht, rfl, rfl, rfl⟩

/-- C6: every acoustic segment returned by the detector satisfies
`minSegmentDuration ≤ end − start ≤ maxSegmentDuration` — including a final
candidate closed at the end of the audio — and the scoring/sorting step
neither drops nor adds candidates (it maps the candidates one-to-one and
sorts them). -/
theorem C6_detect_duration_bounds (opts : DetectionOptions)
    (videoExists : Bool) (extractAudioResult : Except String Unit)
    (durationResult : Except String ℚ) (energyResult : Except String (List ℚ))
    (l : List Segment)
    (h : detectViralSegments opts videoExists extractAudioResult durationResult
      energyResult = Except.ok l) :
    (∀ s ∈ l, opts.minSegmentDuration ≤ s.stop - s.start ∧
        s.stop - s.start ≤ opts.maxSegmentDuration)
    ∧ ∀ segments : List Segment,
        (scoreSegments opts segments).length = segments.length := by
  refine ⟨?_, fun segments => by simp [scoreSegments]⟩
  unfold detectViralSegments detectViralSegmentsBody at h
  cases videoExists with
  | false =>
    simp only [Bool.not_false, if_true] at h
    rcases Except.ok.inj h with rfl
    simp
  | true =>
    simp only [Bool.not_true, if_false] at h
    cases extractAudioResult with
    | error e =>
      rcases Except.ok.inj h with rfl
      simp
    | ok u =>
      cases durationResult with
      | error e =>
        rcases Except.ok.inj h with rfl
        simp
      | ok audioDuration =>
        cases energyResult with
        | error e =>
          rcases Except.ok.inj h with rfl
          simp
        | ok energyLevels =>
          rcases Except.ok.inj h with rfl
          intro s hs
          rcases scoreSegments_mem opts _ s hs with ⟨t, ht, h1, h2, _⟩
          rw [h1, h2]
          exact analyzeAudio_duration_bounds opts energyLevels audioDuration t ht

/-- C6 (witness): the duration-bound theorem applied to a concrete run —
two energy samples over 20 seconds of audio, producing one ten-second
speech candidate scored 38/45. -/
theorem C6_detect_duration_bounds_witness :
    (∀ s ∈ [(⟨0, 10, 38/45, SegmentType.speech⟩ : Segment)],
        defaultDetectionOptions.minSegmentDuration ≤ s.stop - s.start ∧
          s.stop - s.start ≤ defaultDetectionOptions.maxSegmentDuration)
    ∧ ∀ segments : List Segment,
        (scoreSegments defaultDetectionOptions segments).length =
          segments.length :=
  C6_detect_duration_bounds defaultDetectionOptions true (Except.ok ())
    (Except.ok 20) (Except.ok [0.9, 0]) [⟨0, 10, 38/45, SegmentType.speech⟩]
    (by norm_num [detectViralSegments, detectViralSegmentsBody, scoreSegments,
      analyzeAudio, analyzeAudioStep, calculateDurationScore, List.enum,
      List.enumFrom, defaultDetectionOptions, byScoreDesc])

/-! ## The orphan pass of the fusion engine -/

/-- The orphan pass only appends: it returns its input list followed by
orphan segments, and every appended orphan was checked against everything
already in the list at its insertion time — the input segments and the
orphans appended earlier in the same pass alike. -/
theorem addOrphanCaptions_decomposition :
    ∀ (captionAnalysisResults : List CaptionAnalysis)
      (acc : List EnhancedSegment),
      ∃ extra : List EnhancedSegment,
        addOrphanCaptions acc captionAnalysisResults = acc ++ extra
        ∧ (∀ o ∈ extra, ∀ s ∈ acc,
            segmentsOverlap ⟨s.start, s.stop⟩ ⟨o.start, o.stop⟩ = false)
        ∧ extra.Pairwise (fun a b =>
            segmentsOverlap ⟨a.start, a.stop⟩ ⟨b.start, b.stop⟩ = false)
        ∧ ∀ o ∈ extra, ∃ r ∈ captionAnalysisResults, o = orphanSegment r := by
  intro results
  induction results with
  | nil =>
    intro acc
    exact ⟨[], by simp [addOrphanCaptions], by simp, by simp, by simp⟩
  | cons r rest ih =>
    intro acc
    have hunf : addOrphanCaptions acc (r :: rest) =
        addOrphanCaptions
          (if r.score < 0.7 then acc
           else
             if acc.any (fun segment =>
                 segmentsOverlap ⟨segment.start, segment.stop⟩
                   ⟨r.caption.start, r.caption.start + r.caption.duration⟩) then
               acc
             else acc ++ [orphanSegment r]) rest := rfl
    by_cases hsc : r.score < 0.7
    · rw [if_pos hsc] at hunf
      obtain ⟨extra, h1, h2, h3, h4⟩ := ih acc
      refine ⟨extra, ?_, h2, h3, ?_⟩
      · rw [hunf]; exact h1
      · intro o ho
        obtain ⟨r', hr', rfl⟩ := h4 o ho
        exact ⟨r', List.mem_cons_of_mem _ hr', rfl⟩
    · rw [if_neg hsc] at hunf
      by_cases hov : acc.any (fun segment =>
          segmentsOverlap ⟨segment.start, segment.stop⟩
            ⟨r.caption.start, r.caption.start + r.caption.duration⟩) = true
      · rw [if_pos hov] at hunf
        obtain ⟨extra, h1, h2, h3, h4⟩ := ih acc
        refine ⟨extra, ?_, h2, h3, ?_⟩
        · rw [hunf]; exact h1
        · intro o ho
          obtain ⟨r', hr', rfl⟩ := h4 o ho
          exact ⟨r', List.mem_cons_of_mem _ hr', rfl⟩
      · have hov' : acc.any (fun segment =>
            segmentsOverlap ⟨segment.start, segment.stop⟩
              ⟨r.caption.start, r.caption.start + r.caption.duration⟩) = false := by
          simpa using hov
        rw [if_neg hov] at hunf
        obtain ⟨extra, h1, h2, h3, h4⟩ := ih (acc ++ [orphanSegment r])
        refine ⟨orphanSegment r :: extra, ?_, ?_, ?_, ?_⟩
        · rw [hunf, h1, List.append_assoc]
          rfl
        · intro o ho s hs
          rcases List.mem_cons.mp ho with rfl | ho
          · have := List.any_eq_false.mp hov' s hs
            simpa [orphanSegment] using this
          · exact h2 o ho s (List.mem_append_left _ hs)
        · refine List.Pairwise.cons ?_ h3
          intro b hb
          exact h2 b hb (orphanSegment r) (by simp)
        · intro o ho
          rcases List.mem_cons.mp ho with rfl | ho
          · exact ⟨r, List.mem_cons_self _ _, rfl⟩
          · obtain ⟨r', hr', rfl⟩ := h4 o ho
            exact ⟨r', List.mem_cons_of_mem _ hr', rfl⟩

/-- C10: the fusion engine emits exactly one fused segment per acoustic
input — the output is a permutation of the per-input enhanced segments
followed by the orphan extras — the enhancement preserves `start`, `end`,
`score` and `type` verbatim, and the output is at least as long as the
acoustic input. -/
theorem C10_acoustic_segments_preserved (audioSegments : List Segment)
    (captionAnalysisResults : List CaptionAnalysis) :
    ∃ extra : List EnhancedSegment,
      List.Perm
        (combineAudioAndCaptionAnalysis audioSegments captionAnalysisResults)
        (audioSegments.map (enhanceAudioSegment captionAnalysisResults) ++ extra)
      ∧ (∀ A : Segment,
          (enhanceAudioSegment captionAnalysisResults A).start = A.start
          ∧ (enhanceAudioSegment captionAnalysisResults A).stop = A.stop
          ∧ (enhanceAudioSegment captionAnalysisResults A).score = A.score
          ∧ (enhanceAudioSegment captionAnalysisResults A).type = A.type)
      ∧ audioSegments.length ≤
          (combineAudioAndCaptionAnalysis audioSegments
            captionAnalysisResults).length := by
  obtain ⟨extra, h1, _, _, _⟩ := addOrphanCaptions_decomposition
    captionAnalysisResults (audioSegments.map (enhanceAudioSegment captionAnalysisResults))
  refine ⟨extra, ?_, ?_, ?_⟩
  · unfold combineAudioAndCaptionAnalysis
    dsimp only
    rw [h1]
    exact List.mergeSort_perm _ _
  · intro A
    unfold enhanceAudioSegment
    dsimp only
    cases findOverlappingCaptions A (captionAnalysisResults.map toCaptionSegment) with
    | nil => exact ⟨rfl, rfl, rfl, rfl⟩
    | cons first rest => exact ⟨rfl, rfl, rfl, rfl⟩
  · unfold combineAudioAndCaptionAnalysis
    dsimp only
    rw [h1, List.length_mergeSort, List.length_append, List.length_map]
    exact Nat.le_add_right _ _

/-! ## The fusion engine matches the specification model -/

/-- Summing scores with a fold equals the sum of the mapped scores. -/
theorem foldl_add_map {α : Type} (f : α → ℚ) :
    ∀ (l : List α) (a : ℚ),
      l.foldl (fun s x => s + f x) a = a + (l.map f).sum := by
  intro l
  induction l with
  | nil => intro a; simp
  | cons c t ih =>
    intro a
    rw [List.foldl_cons, List.map_cons, List.sum_cons, ih, add_assoc]

/-- Folding the strict-improvement selector over the mapped caption
segments is the image of folding it over the analyses themselves. -/
theorem foldl_best_map :
    ∀ (l : List CaptionAnalysis) (b : CaptionAnalysis),
      (l.map toCaptionSegment).foldl (fun best current =>
        if current.analysis.score > best.analysis.score then current else best)
        (toCaptionSegment b) =
      toCaptionSegment (l.foldl (fun best current =>
        if current.score > best.score then current else best) b) := by
  intro l
  induction l with
  | nil => intro b; rfl
  | cons c t ih =>
    intro b
    rw [List.map_cons, List.foldl_cons, List.foldl_cons]
    have hstep : (if (toCaptionSegment c).analysis.score >
          (toCaptionSegment b).analysis.score
        then toCaptionSegment c else toCaptionSegment b) =
        toCaptionSegment (if c.score > b.score then c else b) := by
      dsimp only [toCaptionSegment]
      rcases lt_or_ge b.score c.score with h | h
      · rw [if_pos h, if_pos h]
      · rw [if_neg (not_lt.mpr h), if_neg (not_lt.mpr h)]
    rw [hstep, ih]

/-- Folding `List.argAux` from a `some` seed is the strict-improvement
fold: the accumulator is replaced only on a strictly larger score, so the
first maximal element wins. -/
theorem foldl_argAux_some :
    ∀ (l : List CaptionAnalysis) (b : CaptionAnalysis),
      l.foldl (List.argAux fun x y =>
        (fun r : CaptionAnalysis => r.score) y <
          (fun r : CaptionAnalysis => r.score) x) (some b) =
      some (l.foldl (fun best current =>
        if current.score > best.score then current else best) b) := by
  intro l
  induction l with
  | nil => intro b; rfl
  | cons c t ih =>
    intro b
    rw [List.foldl_cons, List.foldl_cons]
    have hstep : List.argAux (fun x y =>
        (fun r : CaptionAnalysis => r.score) y <
          (fun r : CaptionAnalysis => r.score) x) (some b) c =
        some (if c.score > b.score then c else b) := by
      dsimp only [List.argAux]
      rcases lt_or_ge b.score c.score with h | h
      · rw [if_pos h, if_pos h]
      · rw [if_neg (not_lt.mpr h), if_neg (not_lt.mpr h)]
    rw [hstep, ih]

/-- `List.argmax` on a non-empty list is the source's reduce: seed with the
head, replace only on strictly larger score. -/
theorem argmax_cons_eq_foldl (l : List CaptionAnalysis) (b : CaptionAnalysis) :
    List.argmax (fun r : CaptionAnalysis => r.score) (b :: l) =
      some (l.foldl (fun best current =>
        if current.score > best.score then current else best) b) := by
  unfold List.argmax
  rw [List.foldl_cons]
  exact foldl_argAux_some l b

theorem enhanceAudioSegment_eq_spec (results : List CaptionAnalysis)
    (A : Segment) :
    enhanceAudioSegment results A = specFuseAcoustic results A := by
  unfold enhanceAudioSegment specFuseAcoustic findOverlappingCaptions
  rw [List.filter_map]
  have hpred : ((fun captionSegment : CaptionSegment =>
      segmentsOverlap ⟨A.start, A.stop⟩
        ⟨captionSegment.start, captionSegment.stop⟩) ∘ toCaptionSegment) =
      (fun r : CaptionAnalysis =>
        decide (A.start < r.caption.start + r.caption.duration) &&
          decide (r.caption.start < A.stop)) := rfl
  rw [hpred]
  cases hov : results.filter (fun r : CaptionAnalysis =>
      decide (A.start < r.caption.start + r.caption.duration) &&
        decide (r.caption.start < A.stop)) with
  | nil =>
    simp only [List.map_nil, List.isEmpty_nil, if_true]
    rw [mul_comm]
  | cons r rs =>
    simp only [List.isEmpty_cons, Bool.false_eq_true, if_false]
    rw [List.map_cons]
    dsimp only
    rw [← List.map_cons]
    congr 1
    · rw [List.map_map]
      rfl
    · rw [foldl_best_map (r :: rs) r, argmax_cons_eq_foldl rs r,
        List.foldl_cons, if_neg (lt_irrefl r.score)]
      rfl
    · have hsum : List.foldl (fun sum c => sum + c.analysis.score) 0
          (List.map toCaptionSegment (r :: rs)) =
          ((r :: rs).map (fun x : CaptionAnalysis => x.score)).sum := by
        rw [List.foldl_map]
        exact (foldl_add_map (fun y : CaptionAnalysis =>
          (toCaptionSegment y).analysis.score) (r :: rs) 0).trans (zero_add _)
      rw [hsum, List.length_map]
      ring

/-- The source's orphan loop equals the spec model of the orphan pass:
the `score < 0.7` skip is the complement of the claim's `score >= 0.7`
filter, the overlap check is the same, and the appended record is the
claim's orphan segment. -/
theorem addOrphanCaptions_eq_spec :
    ∀ (results : List CaptionAnalysis) (acc : List EnhancedSegment),
      addOrphanCaptions acc results = specAddOrphans acc results := by
  intro results
  induction results with
  | nil => intro acc; rfl
  | cons r rest ih =>
    intro acc
    have hunf : addOrphanCaptions acc (r :: rest) =
        addOrphanCaptions
          (if r.score < 0.7 then acc
           else
             if acc.any (fun segment =>
                 segmentsOverlap ⟨segment.start, segment.stop⟩
                   ⟨r.caption.start, r.caption.start + r.caption.duration⟩) then
               acc
             else acc ++ [orphanSegment r]) rest := rfl
    rw [hunf]
    simp only [specAddOrphans]
    have hany : (acc.any fun s =>
        decide (s.start < r.caption.start + r.caption.duration) &&
          decide (r.caption.start < s.stop)) =
        (acc.any fun segment =>
          segmentsOverlap ⟨segment.start, segment.stop⟩
            ⟨r.caption.start, r.caption.start + r.caption.duration⟩) := rfl
    rw [hany]
    by_cases hsc : r.score < 0.7
    · rw [if_pos hsc, decide_eq_false (not_le.mpr hsc)]
      simp only [Bool.false_and, Bool.false_eq_true, if_false]
      exact ih acc
    · rw [if_neg hsc, decide_eq_true (not_lt.mp hsc)]
      simp only [Bool.true_and]
      by_cases hov : (acc.any fun segment =>
          segmentsOverlap ⟨segment.start, segment.stop⟩
            ⟨r.caption.start, r.caption.start + r.caption.duration⟩) = true
      · rw [if_pos hov, hov]
        simp only [Bool.not_true, Bool.false_eq_true, if_false]
        exact ih acc
      · have hov' : (acc.any fun segment =>
            segmentsOverlap ⟨segment.start, segment.stop⟩
              ⟨r.caption.start, r.caption.start + r.caption.duration⟩) = false := by
          simpa using hov
        rw [if_neg hov, hov']
        simp only [Bool.not_false, if_true]
        have horph : orphanSegment r =
            (⟨r.caption.start, r.caption.start + r.caption.duration, 0.5,
              SegmentType.speech, some r.caption.text, some r,
              0.8 * r.score⟩ : EnhancedSegment) := by
          unfold orphanSegment
          congr 1
          ring
        rw [← horph]
        exact ih (acc ++ [orphanSegment r])

/-- C1: the fusion engine is exactly the claim's fusion contract — per
acoustic segment, the overlap set by the half-open predicate, mean of the
overlapping scores with the 0.4/0.6 weights (0.7 penalty when none),
space-joined caption texts in input order, the first maximal-score
overlapping result attached; orphan relevance results with score at least
0.7 and no overlap with anything produced so far appended with score 0.5,
type speech and 0.8 penalty; and the whole output sorted by combined score
descending. -/
theorem C1_fuse_matches_spec (audioSegments : List Segment)
    (captionAnalysisResults : List CaptionAnalysis) :
    combineAudioAndCaptionAnalysis audioSegments captionAnalysisResults =
      fuseSpec audioSegments captionAnalysisResults
    ∧ List.Sorted (fun a b : EnhancedSegment =>
        b.combinedScore ≤ a.combinedScore)
        (combineAudioAndCaptionAnalysis audioSegments captionAnalysisResults) := by
  constructor
  · unfold combineAudioAndCaptionAnalysis fuseSpec
    dsimp only
    rw [show enhanceAudioSegment captionAnalysisResults =
        specFuseAcoustic captionAnalysisResults from
      funext (enhanceAudioSegment_eq_spec captionAnalysisResults)]
    rw [addOrphanCaptions_eq_spec]
  · have htrans : ∀ (a b c : EnhancedSegment), byCombinedScoreDesc a b →
        byCombinedScoreDesc b c → byCombinedScoreDesc a c := by
      intro a b c hab hbc
      simp only [byCombinedScoreDesc, decide_eq_true_eq] at hab hbc ⊢
      exact le_trans hbc hab
    have htotal : ∀ (a b : EnhancedSegment),
        byCombinedScoreDesc a b || byCombinedScoreDesc b a := by
      intro a b
      simp only [byCombinedScoreDesc]
      rcases le_total a.combinedScore b.combinedScore with h | h
      · simp [h]
      · simp [h]
    have hp := List.sorted_mergeSort htrans htotal
      (addOrphanCaptions
        (audioSegments.map (enhanceAudioSegment captionAnalysisResults))
        captionAnalysisResults)
    unfold combineAudioAndCaptionAnalysis
    dsimp only
    refine hp.imp ?_
    intro a b h
    simpa [byCombinedScoreDesc] using h
end Clipper
